import Mathlib

/-!
Verification development for the adaptive multi-codec chunking and cache
service of the base64-test repository.

Bytes and JavaScript strings are both modelled as `List Nat`: a byte list
holds values below 256, and a string is its list of UTF-16 code units
(`charCodeAt` values).  All definitions are executable.

The client-side decoders are translated from the frontend source
(`decodeData` in src/unnamed/part_000 and the IndexedDB helpers in
src/frontend/src/utils/indexeddb.ts).  The server-side encoders, chunk
planner and info service are not present under src/ (the backend is absent
from the repository snapshot); those definitions are modelled from the
spec, as their doc comments state.
-/

namespace B64T

/-- The six codec names supported by the system (`EncodingType` in
src/unnamed/part_000). -/
inductive Codec
  | base64
  | hex
  | base32
  | base85
  | uuencode
  | yenc
deriving DecidableEq, Repr

/-! ## Client-side decoding (src/unnamed/part_000, `decodeData`) -/

/-- Value of a character in the standard base64 alphabet, `none` for a
character outside the alphabet. -/
def b64CharVal (c : Nat) : Option Nat :=
  if 65 ≤ c ∧ c ≤ 90 then some (c - 65)
  else if 97 ≤ c ∧ c ≤ 122 then some (26 + (c - 97))
  else if 48 ≤ c ∧ c ≤ 57 then some (52 + (c - 48))
  else if c = 43 then some 62
  else if c = 47 then some 63
  else none

/-- ASCII whitespace stripped by the platform `atob` (forgiving-base64). -/
def isJsWhitespace (c : Nat) : Bool :=
  c = 9 || c = 10 || c = 12 || c = 13 || c = 32

/-- Drop up to two trailing padding characters when the length is a
multiple of four, as forgiving-base64 does. -/
def b64TrimPad (l : List Nat) : List Nat :=
  if l.length % 4 = 0 then
    match l.reverse with
    | 61 :: 61 :: r => r.reverse
    | 61 :: r => r.reverse
    | _ => l
  else l

/-- Repack a list of sextet values into bytes: every full group of four
sextets yields three bytes, a trailing group of two or three sextets
yields one or two bytes. -/
def sextetsToBytes : List Nat → List Nat
  | s1 :: s2 :: s3 :: s4 :: rest =>
      (s1 * 4 + s2 / 16) :: ((s2 % 16) * 16 + s3 / 4) :: ((s3 % 4) * 64 + s4) ::
        sextetsToBytes rest
  | [s1, s2] => [s1 * 4 + s2 / 16]
  | [s1, s2, s3] => [s1 * 4 + s2 / 16, (s2 % 16) * 16 + s3 / 4]
  | [_] => []
  | [] => []

/-- The platform `atob` (WHATWG forgiving-base64 decode), used by the
base64 branch of `decodeData`: strip ASCII whitespace, then strip up to
two trailing `=` when the length is a multiple of four, fail when the
remaining length is 1 mod 4 or a character is outside the alphabet, and
repack the sextets into bytes. -/
def atobModel (l : List Nat) : Option (List Nat) :=
  let t := b64TrimPad (l.filter (fun c => ! isJsWhitespace c))
  if t.length % 4 = 1 then none
  else (t.mapM b64CharVal).map sextetsToBytes

/-- Decoding core shared by the stages of `atobModel`: map each character
to its sextet value and repack the sextets into bytes (the part of the
platform atob that runs after whitespace stripping and padding removal). -/
def b64CoreDecode (l : List Nat) : Option (List Nat) :=
  (l.mapM b64CharVal).map sextetsToBytes

/-- Value of a hexadecimal digit character, `none` otherwise. -/
def hexDigitVal (c : Nat) : Option Nat :=
  if 48 ≤ c ∧ c ≤ 57 then some (c - 48)
  else if 97 ≤ c ∧ c ≤ 102 then some (10 + (c - 97))
  else if 65 ≤ c ∧ c ≤ 70 then some (10 + (c - 65))
  else none

/-- The value `parseInt(two-char-string, 16)` coerced through a
`Uint8Array` store: `parseInt` parses the longest valid digit prefix, and
`NaN` (no valid prefix) is stored as 0.  Sign, whitespace and `0x`
prefixes of the platform `parseInt` are not modelled; they do not occur in
hexadecimal encoder output. -/
def parseHexPair (p : Nat × Nat) : Nat :=
  match hexDigitVal p.1 with
  | none => 0
  | some v1 =>
    match hexDigitVal p.2 with
    | none => v1
    | some v2 => 16 * v1 + v2

/-- Split a character list into consecutive pairs, mirroring the
`i += 2` loop of the hex branch. -/
def hexPairs : List Nat → List (Nat × Nat)
  | c1 :: c2 :: rest => (c1, c2) :: hexPairs rest
  | _ => []

/-- Value of a character in the RFC 4648 base32 alphabet after
`toUpperCase`, `none` for a character outside it. -/
def base32CharVal (c : Nat) : Option Nat :=
  if 65 ≤ c ∧ c ≤ 90 then some (c - 65)
  else if 97 ≤ c ∧ c ≤ 122 then some (c - 97)
  else if 50 ≤ c ∧ c ≤ 55 then some (26 + (c - 50))
  else none

/-- The five bits of a base32 value, most significant first. -/
def bits5 (v : Nat) : List Nat :=
  [v / 16 % 2, v / 8 % 2, v / 4 % 2, v / 2 % 2, v % 2]

/-- Fold eight bits into a byte value. -/
def byteOfBits (b1 b2 b3 b4 b5 b6 b7 b8 : Nat) : Nat :=
  ((((((b1 * 2 + b2) * 2 + b3) * 2 + b4) * 2 + b5) * 2 + b6) * 2 + b7) * 2 + b8

/-- Take bytes out of a bit stream eight bits at a time, discarding a
remainder shorter than eight bits (the source keeps
`floor(bits.length / 8)` bytes). -/
def bytesOfBits : List Nat → List Nat
  | b1 :: b2 :: b3 :: b4 :: b5 :: b6 :: b7 :: b8 :: rest =>
      byteOfBits b1 b2 b3 b4 b5 b6 b7 b8 :: bytesOfBits rest
  | _ => []

/-- The base32 branch of `decodeData`: remove every `=`, keep only
characters of the alphabet (characters outside it are silently skipped by
the `val !== -1` test), concatenate their 5-bit strings and take the
resulting whole bytes. -/
def base32DecodeModel (l : List Nat) : List Nat :=
  bytesOfBits (((l.filter (fun c => c ≠ 61)).filterMap base32CharVal).map bits5).flatten

/-- The yEnc decoding loop of `decodeData`: an `0x3D` that is not the last
byte escapes the following byte (subtract 64 mod 256), then every byte is
shifted down by 42 mod 256.  A trailing lone `0x3D` is treated as a
literal byte, exactly as the `i + 1 < length` bound does. -/
def yencDecodeModel : List Nat → List Nat
  | [] => []
  | [b] => [(b + 256 - 42) % 256]
  | b :: b2 :: rest =>
      if b = 61 then ((b2 + 256 - 64) % 256 + 256 - 42) % 256 :: yencDecodeModel rest
      else (b + 256 - 42) % 256 :: yencDecodeModel (b2 :: rest)

/-- The client-side `decodeData` function (src/unnamed/part_000 lines
598-674).  The base64 branch is the platform `atob` followed by
`charCodeAt` packing (identity in this model); the hex branch fails on an
odd-length input because `new Uint8Array(length / 2)` throws on a
non-integer length; the base85 and uuencode branches delegate to the
base64 branch; the yEnc branch first truncates code units to bytes, as
storing `charCodeAt` values into a `Uint8Array` does.  A thrown exception
is modelled as `none`. -/
def decodeData (s : List Nat) : Codec → Option (List Nat)
  | .base64 => atobModel s
  | .hex =>
      if s.length % 2 = 0 then some ((hexPairs s).map parseHexPair) else none
  | .base32 => some (base32DecodeModel s)
  | .base85 => atobModel s
  | .uuencode => atobModel s
  | .yenc => some (yencDecodeModel (s.map (· % 256)))

/-! ## Server-side encoding (modelled from the spec)

The backend service is not part of the repository snapshot under src/;
only its HTTP callers and the issue notes are.  The encoders below are
modelled from the spec, section 4.1. -/

/-- Character of a base64 sextet value (standard alphabet). -/
def b64CharOf (v : Nat) : Nat :=
  if v < 26 then 65 + v
  else if v < 52 then 97 + (v - 26)
  else if v < 62 then 48 + (v - 52)
  else if v = 62 then 43
  else 47

/-- Modelled from the spec: the backend base64 encoder (standard alphabet,
`=` padding only on the final partial group). -/
def b64Encode : List Nat → List Nat
  | a :: b :: c :: rest =>
      b64CharOf (a / 4) :: b64CharOf ((a % 4) * 16 + b / 16) ::
        b64CharOf ((b % 16) * 4 + c / 64) :: b64CharOf (c % 64) :: b64Encode rest
  | [a, b] => [b64CharOf (a / 4), b64CharOf ((a % 4) * 16 + b / 16),
      b64CharOf ((b % 16) * 4), 61]
  | [a] => [b64CharOf (a / 4), b64CharOf ((a % 4) * 16), 61, 61]
  | [] => []

/-- Lowercase hexadecimal digit character of a value below 16. -/
def hexCharOf (v : Nat) : Nat :=
  if v < 10 then 48 + v else 97 + (v - 10)

/-- Modelled from the spec: the backend hex encoder, two lowercase digits
per byte (the spec fixes one case per config; lowercase is chosen). -/
def hexEncode : List Nat → List Nat
  | b :: rest => hexCharOf (b / 16 % 16) :: hexCharOf (b % 16) :: hexEncode rest
  | [] => []

/-- Character of a base32 value (RFC 4648 alphabet). -/
def b32CharOf (v : Nat) : Nat :=
  if v < 26 then 65 + v else 50 + (v - 26)

/-- Modelled from the spec: the backend RFC 4648 base32 encoder, five raw
bytes to eight characters, padding only on the final partial group. -/
def base32Encode : List Nat → List Nat
  | a :: b :: c :: d :: e :: rest =>
      b32CharOf (a / 8) :: b32CharOf ((a % 8) * 4 + b / 64) ::
      b32CharOf (b / 2 % 32) :: b32CharOf ((b % 2) * 16 + c / 16) ::
      b32CharOf ((c % 16) * 2 + d / 128) :: b32CharOf (d / 4 % 32) ::
      b32CharOf ((d % 4) * 8 + e / 32) :: b32CharOf (e % 32) :: base32Encode rest
  | [a] => [b32CharOf (a / 8), b32CharOf ((a % 8) * 4), 61, 61, 61, 61, 61, 61]
  | [a, b] => [b32CharOf (a / 8), b32CharOf ((a % 8) * 4 + b / 64),
      b32CharOf (b / 2 % 32), b32CharOf ((b % 2) * 16), 61, 61, 61, 61]
  | [a, b, c] => [b32CharOf (a / 8), b32CharOf ((a % 8) * 4 + b / 64),
      b32CharOf (b / 2 % 32), b32CharOf ((b % 2) * 16 + c / 16),
      b32CharOf ((c % 16) * 2), 61, 61, 61]
  | [a, b, c, d] => [b32CharOf (a / 8), b32CharOf ((a % 8) * 4 + b / 64),
      b32CharOf (b / 2 % 32), b32CharOf ((b % 2) * 16 + c / 16),
      b32CharOf ((c % 16) * 2 + d / 128), b32CharOf (d / 4 % 32),
      b32CharOf ((d % 4) * 8), 61]
  | [] => []

/-- The five ASCII85 characters of one 4-byte group. -/
def a85Group (a b c d : Nat) : List Nat :=
  let n := ((a * 256 + b) * 256 + c) * 256 + d
  [33 + n / 52200625, 33 + n / 614125 % 85, 33 + n / 7225 % 85,
   33 + n / 85 % 85, 33 + n % 85]

/-- Modelled from the spec: the backend ASCII85-style base85 encoder, four
raw bytes to five characters; a final partial group of k bytes is
zero-padded and emits its first k+1 characters (no `z` shorthand). -/
def base85Encode : List Nat → List Nat
  | a :: b :: c :: d :: rest => a85Group a b c d ++ base85Encode rest
  | [a] => (a85Group a 0 0 0).take 2
  | [a, b] => (a85Group a b 0 0).take 3
  | [a, b, c] => (a85Group a b c 0).take 4
  | [] => []

/-- Modelled from the spec: the backend yEnc encoder.  Each byte becomes
`(raw + 42) mod 256`; when the result is NUL, LF, CR or the escape byte
`0x3D` it is emitted as `0x3D` followed by `(value + 64) mod 256`. -/
def yencEncode : List Nat → List Nat
  | [] => []
  | b :: rest =>
      let e := (b + 42) % 256
      if e = 0 ∨ e = 10 ∨ e = 13 ∨ e = 61 then
        61 :: (e + 64) % 256 :: yencEncode rest
      else
        e :: yencEncode rest

/-- Modelled from the spec: the backend encoder for each codec.  The spec
treats uuencode as a base64 equivalent (the client comment likewise says
the backend uses base64 for uuencode). -/
def encodeData : Codec → List Nat → List Nat
  | .base64 => b64Encode
  | .hex => hexEncode
  | .base32 => base32Encode
  | .base85 => base85Encode
  | .uuencode => b64Encode
  | .yenc => yencEncode

/-! ## Client-side reassembly modes (src/unnamed/part_000, `decodeBase64Chunks`) -/

/-- The full mode of `decodeBase64Chunks` (src/unnamed/part_000 lines
920-936): join all encoded chunks into one string and decode once. -/
def fullModeDecode (c : Codec) (chunks : List (List Nat)) : Option (List Nat) :=
  decodeData chunks.flatten c

/-- The chunk mode of `decodeBase64Chunks` (src/unnamed/part_000 lines
937-960): decode each chunk individually and concatenate the decoded
bytes; an error thrown while decoding any chunk aborts the whole
operation. -/
def chunkModeDecode (c : Codec) (chunks : List (List Nat)) : Option (List Nat) :=
  (chunks.mapM (fun ch => decodeData ch c)).map List.flatten

/-! ## Chunk planner and info service (modelled from the spec)

The backend planner and the `/file/.../info` endpoint are absent from
src/; they are modelled from spec sections 4.2 and 4.6 and the fix
description in src/ISSUE_SUMMARY.md. -/

/-- Numerator of the nominal expansion ratio of a codec (spec section 3,
EncodingProfile; the yEnc upper-bound ratio 1.02 comes from the issue
notes). -/
def ratioNum : Codec → Nat
  | .base64 => 4
  | .hex => 2
  | .base32 => 8
  | .base85 => 5
  | .uuencode => 4
  | .yenc => 102

/-- Denominator of the nominal expansion ratio of a codec. -/
def ratioDen : Codec → Nat
  | .base64 => 3
  | .hex => 1
  | .base32 => 5
  | .base85 => 4
  | .uuencode => 3
  | .yenc => 100

/-- Raw alignment unit of a codec: the smallest raw-byte unit the codec
must consume whole (spec section 3). -/
def alignment : Codec → Nat
  | .base64 => 3
  | .hex => 1
  | .base32 => 5
  | .base85 => 4
  | .uuencode => 3
  | .yenc => 1

/-- Round a number down to the nearest multiple of `a`. -/
def alignDown (n a : Nat) : Nat := n / a * a

/-- Modelled from the spec: the raw byte window the planner reads for a
non-final chunk: `floor(T / expansion_ratio)` rounded down to the nearest
multiple of the codec's raw alignment (spec section 4.2). -/
def rawWindow (c : Codec) (T : Nat) : Nat :=
  alignDown (T * ratioDen c / ratioNum c) (alignment c)

/-- Recursion core of `splitIntoWindows`; the first argument is fuel
bounding the number of windows, so the recursion is structural. -/
def splitGo (w : Nat) : Nat → List Nat → List (List Nat)
  | 0, f => [f]
  | fuel + 1, f =>
      if f.length ≤ w ∨ w = 0 then [f]
      else f.take w :: splitGo w fuel (f.drop w)

/-- Modelled from the spec: split a file into the planner's raw windows:
every chunk but the last reads `w` bytes, the final chunk takes whatever
remainder exists; a zero-length file yields exactly one zero-length chunk
(spec section 4.2, edge cases). -/
def splitIntoWindows (w : Nat) (f : List Nat) : List (List Nat) :=
  splitGo w f.length f

/-- Recursion core of `windowCount`, with the same fuel discipline as
`splitGo`. -/
def windowCountGo (w : Nat) : Nat → Nat → Nat
  | 0, _ => 1
  | fuel + 1, n =>
      if n ≤ w ∨ w = 0 then 1
      else 1 + windowCountGo w fuel (n - w)

/-- Number of chunks the planner produces for a file of `n` bytes with
window size `w` (the length of `splitIntoWindows`). -/
def windowCount (w n : Nat) : Nat :=
  windowCountGo w n n

/-- Modelled from the spec: the estimate formula of the info service,
`ceil(original_size * expansion_ratio / target_chunk_size)` with the
codec's nominal ratio (spec section 4.6). -/
def estimateChunks (c : Codec) (n T : Nat) : Nat :=
  (n * ratioNum c + ratioDen c * T - 1) / (ratioDen c * T)

/-- Result record of the info service (`total_chunks` and the
`is_processed` flag). -/
structure InfoResult where
  total_chunks : Nat
  is_processed : Bool
deriving DecidableEq, Repr

/-- A cache area for one (file, encoding) pair: the cached entries as a
list of (chunk index, encoded data) pairs. -/
abbrev CacheArea : Type := List (Nat × List Nat)

/-- Number of distinct chunk indices present in a cache area (the
Cache Store `Count`). -/
def cacheCount (cache : CacheArea) : Nat :=
  ((cache.map Prod.fst).dedup).length

/-- Largest cached chunk index (0 when the area is empty). -/
def lastCachedIndex (cache : CacheArea) : Nat :=
  (cache.map Prod.fst).foldr max 0

/-- Modelled from the spec: `GetInfo` after the documented fix
(src/ISSUE_SUMMARY.md, The Fix; spec section 4.6): when the cache area for
the requested encoding is non-empty and its last cached index corresponds
to EOF it returns the actual cached-entry count with `is_processed = true`;
otherwise it falls back to the estimate formula with
`is_processed = false`. -/
def getInfo (c : Codec) (n T : Nat) (cache : CacheArea) : InfoResult :=
  if 0 < cacheCount cache ∧ lastCachedIndex cache + 1 = windowCount (rawWindow c T) n
  then { total_chunks := cacheCount cache, is_processed := true }
  else { total_chunks := estimateChunks c n T, is_processed := false }

/-! ## Frontend chunk-count estimates -/

/-- The expected-chunk formula of src/unnamed/part_000 line 411 (also
src/frontend/src/components/ChunkedDecoder.tsx line 411):
`Math.ceil((fileInfo.b64_size * 4/3) / state.customChunkSize)`, read with
exact rational arithmetic (the floating-point evaluation is exact at the
inputs used below). -/
def expectedChunksPart000 (b64Size T : Nat) : Nat :=
  Nat.ceil (((b64Size : ℚ) * 4 / 3) / (T : ℚ))

/-- The estimated-chunk formula of src/unnamed/part_002 line 384:
`Math.ceil(fileInfo.b64_size / state.customChunkSize)`. -/
def estimatedChunksPart002 (b64Size T : Nat) : Nat :=
  Nat.ceil ((b64Size : ℚ) / (T : ℚ))

/-! ## IndexedDB chunk store (src/frontend/src/utils/indexeddb.ts) -/

/-- One stored chunk record (`StoredChunk` in indexeddb.ts). -/
structure StoredChunk where
  fileId : String
  chunkNumber : Nat
  data : List Nat
  timestamp : Nat
deriving DecidableEq, Repr

/-- The chunks object store: its list of records.  The store's key path
is `[fileId, chunkNumber]`, so a well-formed store has at most one record
per (fileId, chunkNumber) pair. -/
abbrev Store : Type := List StoredChunk

/-- Whether two records share the IndexedDB key `[fileId, chunkNumber]`. -/
def sameKey (a b : StoredChunk) : Bool :=
  a.fileId = b.fileId ∧ a.chunkNumber = b.chunkNumber

/-- `ChunkStorage.storeChunk`: an IndexedDB `put`, which replaces the
record with the same key if present and inserts the record otherwise.
The caller supplies the timestamp (`Date.now()` in the source). -/
def storeChunk (fileId : String) (chunkNumber : Nat) (data : List Nat)
    (ts : Nat) (s : Store) : Store :=
  let e : StoredChunk :=
    { fileId := fileId, chunkNumber := chunkNumber,
      data := data, timestamp := ts }
  if s.any (sameKey e) then
    s.map (fun e2 => if sameKey e e2 then e else e2)
  else
    s ++ [e]

/-- `ChunkStorage.getChunk`: fetch the record with key
`[fileId, chunkNumber]` and return its data, `null` when absent. -/
def getChunk (fileId : String) (chunkNumber : Nat) (s : Store) :
    Option (List Nat) :=
  (s.find? (fun e => e.fileId = fileId && e.chunkNumber = chunkNumber)).map
    (fun e => e.data)

/-- `ChunkStorage.getAllChunksForFile`: collect the records of the file,
sort them by ascending `chunkNumber` (the `(a, b) => a.chunkNumber -
b.chunkNumber` comparator) and return just their data. -/
def getAllChunksForFile (fileId : String) (s : Store) : List (List Nat) :=
  (((s.filter (fun e => e.fileId = fileId))).mergeSort
      (fun a b => a.chunkNumber ≤ b.chunkNumber)).map (fun e => e.data)

/-- The sequential IndexedDB download pass of src/unnamed/part_000 (lines
1086-1111 and likewise lines 235-263): for each chunk index below
`total`, skip the index if `getChunk` already finds it, otherwise fetch
the chunk text and store it.  `fetch` maps an index to the downloaded
data and `ts` to the store timestamp. -/
def sequentialPass (key : String) (total : Nat) (fetch : Nat → List Nat)
    (ts : Nat → Nat) (s : Store) : Store :=
  (List.range total).foldl
    (fun st i =>
      if (getChunk key i st).isSome then st
      else storeChunk key i (fetch i) (ts i) st)
    s

/-! ## Lemmas about the chunk planner -/

theorem splitGo_flatten (w : Nat) : ∀ (fuel : Nat) (f : List Nat),
    (splitGo w fuel f).flatten = f
  | 0, f => by simp [splitGo]
  | fuel + 1, f => by
      by_cases h : f.length ≤ w ∨ w = 0
      · simp [splitGo, h]
      · simp only [splitGo, if_neg h, List.flatten_cons]
        rw [splitGo_flatten w fuel (f.drop w), List.take_append_drop]

theorem splitIntoWindows_flatten (w : Nat) (f : List Nat) :
    (splitIntoWindows w f).flatten = f :=
  splitGo_flatten w f.length f

theorem splitGo_ne_nil (w fuel : Nat) (f : List Nat) : splitGo w fuel f ≠ [] := by
  match fuel with
  | 0 => simp [splitGo]
  | fuel + 1 =>
      by_cases h : f.length ≤ w ∨ w = 0
      · simp [splitGo, h]
      · simp [splitGo, h]

theorem splitGo_get_nonfinal (w : Nat) : ∀ (fuel : Nat) (f : List Nat) (i : Nat)
    (hi : i + 1 < (splitGo w fuel f).length),
    ((splitGo w fuel f).get ⟨i, Nat.lt_of_succ_lt hi⟩).length = w
  | 0, f, i, hi => by
      simp [splitGo] at hi
  | fuel + 1, f, i, hi => by
      by_cases h : f.length ≤ w ∨ w = 0
      · simp [splitGo, h] at hi
      · match i with
        | 0 =>
            simp only [splitGo, if_neg h, List.get_eq_getElem, List.getElem_cons_zero,
              List.length_take]
            omega
        | j + 1 =>
            have hi' : j + 1 < (splitGo w fuel (f.drop w)).length := by
              simpa [splitGo, if_neg h] using hi
            have ih := splitGo_get_nonfinal w fuel (f.drop w) j hi'
            simp only [List.get_eq_getElem] at ih
            simpa only [splitGo, if_neg h, List.get_eq_getElem,
              List.getElem_cons_succ] using ih

theorem splitGo_length_eq_windowCountGo (w : Nat) : ∀ (fuel : Nat) (f : List Nat),
    (splitGo w fuel f).length = windowCountGo w fuel f.length
  | 0, f => by simp [splitGo, windowCountGo]
  | fuel + 1, f => by
      by_cases h : f.length ≤ w ∨ w = 0
      · simp [splitGo, windowCountGo, h]
      · simp only [splitGo, windowCountGo, if_neg h, List.length_cons]
        rw [splitGo_length_eq_windowCountGo w fuel (f.drop w), List.length_drop]
        omega

theorem splitIntoWindows_length (w : Nat) (f : List Nat) :
    (splitIntoWindows w f).length = windowCount w f.length :=
  splitGo_length_eq_windowCountGo w f.length f

/-! ## Encoder concatenation lemmas -/

theorem hexEncode_append (x y : List Nat) :
    hexEncode (x ++ y) = hexEncode x ++ hexEncode y := by
  induction x with
  | nil => simp [hexEncode]
  | cons b rest ih =>
      simp only [List.cons_append, hexEncode, List.append_eq, ih]

theorem yencEncode_append (x y : List Nat) :
    yencEncode (x ++ y) = yencEncode x ++ yencEncode y := by
  induction x with
  | nil => simp [yencEncode]
  | cons b rest ih =>
      simp only [List.cons_append, yencEncode]
      split
      · simp [ih]
      · simp [ih]

theorem b64Encode_append : ∀ (x y : List Nat), x.length % 3 = 0 →
    b64Encode (x ++ y) = b64Encode x ++ b64Encode y
  | [], y, _ => by simp [b64Encode]
  | [a], y, h => by simp at h
  | [a, b], y, h => by simp at h
  | a :: b :: c :: rest, y, h => by
      have h' : rest.length % 3 = 0 := by
        simp only [List.length_cons] at h
        omega
      simp only [List.cons_append, b64Encode, List.append_eq, List.append_assoc]
      rw [b64Encode_append rest y h']

theorem base32Encode_append : ∀ (x y : List Nat), x.length % 5 = 0 →
    base32Encode (x ++ y) = base32Encode x ++ base32Encode y
  | [], y, _ => by simp [base32Encode]
  | [a], y, h => by simp at h
  | [a, b], y, h => by simp at h
  | [a, b, c], y, h => by simp at h
  | [a, b, c, d], y, h => by simp at h
  | a :: b :: c :: d :: e :: rest, y, h => by
      have h' : rest.length % 5 = 0 := by
        simp only [List.length_cons] at h
        omega
      simp only [List.cons_append, base32Encode, List.append_eq, List.append_assoc]
      rw [base32Encode_append rest y h']

theorem base85Encode_append : ∀ (x y : List Nat), x.length % 4 = 0 →
    base85Encode (x ++ y) = base85Encode x ++ base85Encode y
  | [], y, _ => by simp [base85Encode]
  | [a], y, h => by simp at h
  | [a, b], y, h => by simp at h
  | [a, b, c], y, h => by simp at h
  | a :: b :: c :: d :: rest, y, h => by
      have h' : rest.length % 4 = 0 := by
        simp only [List.length_cons] at h
        omega
      simp only [List.cons_append, base85Encode, List.append_eq, List.append_assoc]
      rw [base85Encode_append rest y h']

/-- Every codec's encoder distributes over concatenation at a boundary
aligned to the codec's raw alignment unit. -/
theorem encodeData_append (c : Codec) (x y : List Nat)
    (h : x.length % alignment c = 0) :
    encodeData c (x ++ y) = encodeData c x ++ encodeData c y := by
  cases c with
  | base64 => exact b64Encode_append x y h
  | hex => exact hexEncode_append x y
  | base32 => exact base32Encode_append x y h
  | base85 => exact base85Encode_append x y h
  | uuencode => exact b64Encode_append x y h
  | yenc => exact yencEncode_append x y

theorem alignDown_mod (n a : Nat) : alignDown n a % a = 0 := by
  simp [alignDown, Nat.mul_mod_left]

theorem rawWindow_mod_alignment (c : Codec) (T : Nat) :
    rawWindow c T % alignment c = 0 :=
  alignDown_mod _ _

theorem splitGo_encode_flatten (c : Codec) (w : Nat) (hw : w % alignment c = 0) :
    ∀ (fuel : Nat) (f : List Nat),
      ((splitGo w fuel f).map (encodeData c)).flatten = encodeData c f
  | 0, f => by simp [splitGo]
  | fuel + 1, f => by
      by_cases h : f.length ≤ w ∨ w = 0
      · simp [splitGo, h]
      · simp only [splitGo, if_neg h, List.map_cons, List.flatten_cons]
        rw [splitGo_encode_flatten c w hw fuel (f.drop w)]
        have hc : (f.take w).length % alignment c = 0 := by
          rw [List.length_take, Nat.min_eq_left (by omega : w ≤ f.length)]
          exact hw
        rw [← encodeData_append c (f.take w) (f.drop w) hc, List.take_append_drop]

/-- Concatenating the encoded output of all ChunkPlan windows in index
order equals encoding the whole file in one call. -/
theorem chunk_reassembly (c : Codec) (f : List Nat) (T : Nat) :
    ((splitIntoWindows (rawWindow c T) f).map (encodeData c)).flatten
      = encodeData c f :=
  splitGo_encode_flatten c (rawWindow c T) (rawWindow_mod_alignment c T) f.length f

/-- C5: for every codec and target encoded size T, the planner's raw
window is `floor(T / expansion_ratio)` rounded down to the nearest
multiple of the codec's raw alignment; every chunk except the final one
reads exactly that many raw bytes, and the windows together cover the
file exactly, so the final chunk takes whatever remainder exists. -/
theorem chunkPlanner_raw_windows (c : Codec) (f : List Nat) (T i : Nat)
    (hi : i + 1 < (splitIntoWindows (rawWindow c T) f).length) :
    rawWindow c T = T * ratioDen c / ratioNum c / alignment c * alignment c ∧
    ((splitIntoWindows (rawWindow c T) f).get ⟨i, Nat.lt_of_succ_lt hi⟩).length
      = rawWindow c T ∧
    (splitIntoWindows (rawWindow c T) f).flatten = f :=
  ⟨rfl, splitGo_get_nonfinal (rawWindow c T) f.length f i hi,
    splitIntoWindows_flatten (rawWindow c T) f⟩

theorem chunkPlanner_raw_windows_witness :
    0 + 1 < (splitIntoWindows (rawWindow .base64 4) [1, 2, 3, 4, 5]).length ∧
    (rawWindow .base64 4
        = 4 * ratioDen .base64 / ratioNum .base64 / alignment .base64 * alignment .base64 ∧
      ((splitIntoWindows (rawWindow .base64 4) [1, 2, 3, 4, 5]).get
          ⟨0, Nat.lt_of_succ_lt (by decide)⟩).length = rawWindow .base64 4 ∧
      (splitIntoWindows (rawWindow .base64 4) [1, 2, 3, 4, 5]).flatten
        = [1, 2, 3, 4, 5]) :=
  ⟨by decide, chunkPlanner_raw_windows .base64 [1, 2, 3, 4, 5] 4 0 (by decide)⟩

/-! ## Decoder round trips and the reassembly mode equivalence -/

/-- inverse of hexCharOf -/
theorem hexDigitVal_hexCharOf : ∀ v, v < 16 → hexDigitVal (hexCharOf v) = some v := by
  decide

theorem hexEncode_length (x : List Nat) : (hexEncode x).length = 2 * x.length := by
  induction x with
  | nil => rfl
  | cons b rest ih =>
      simp only [hexEncode, List.length_cons, ih]
      omega

theorem hexPairs_hexEncode : ∀ (x : List Nat), (∀ b ∈ x, b < 256) →
    (hexPairs (hexEncode x)).map parseHexPair = x
  | [], _ => rfl
  | b :: rest, hx => by
      have hb : b < 256 := hx b (List.mem_cons_self b rest)
      have hrest : ∀ a ∈ rest, a < 256 := fun a ha => hx a (List.mem_cons_of_mem b ha)
      have h1 := hexDigitVal_hexCharOf (b / 16 % 16) (by omega)
      have h2 := hexDigitVal_hexCharOf (b % 16) (by omega)
      simp only [hexEncode, hexPairs, List.map_cons, parseHexPair, h1, h2,
        hexPairs_hexEncode rest hrest]
      congr 1
      omega

theorem hex_roundTrip (x : List Nat) (hx : ∀ b ∈ x, b < 256) :
    decodeData (hexEncode x) .hex = some x := by
  have hlen : (hexEncode x).length % 2 = 0 := by
    rw [hexEncode_length]
    omega
  simp only [decodeData, if_pos hlen, hexPairs_hexEncode x hx]

/-- empty encode iff empty input -/
theorem yencEncode_eq_nil {x : List Nat} (h : yencEncode x = []) : x = [] := by
  cases x with
  | nil => rfl
  | cons b rest =>
      exfalso
      simp only [yencEncode] at h
      split at h <;> simp at h

theorem yencEncode_lt256 : ∀ (x : List Nat), ∀ c ∈ yencEncode x, c < 256
  | [] => by simp [yencEncode]
  | b :: rest => by
      intro c hc
      simp only [yencEncode] at hc
      split at hc
      · rcases List.mem_cons.mp hc with h | h
        · omega
        · rcases List.mem_cons.mp h with h2 | h2
          · subst h2
            exact Nat.mod_lt _ (by omega)
          · exact yencEncode_lt256 rest c h2
      · rcases List.mem_cons.mp hc with h | h
        · subst h
          exact Nat.mod_lt _ (by omega)
        · exact yencEncode_lt256 rest c h

theorem map_mod256_eq_self : ∀ (l : List Nat), (∀ c ∈ l, c < 256) →
    l.map (· % 256) = l
  | [], _ => rfl
  | c :: rest, h => by
      simp only [List.map_cons, Nat.mod_eq_of_lt (h c (List.mem_cons_self c rest)),
        map_mod256_eq_self rest (fun a ha => h a (List.mem_cons_of_mem c ha))]

theorem yencDecode_yencEncode : ∀ (x : List Nat), (∀ b ∈ x, b < 256) →
    yencDecodeModel (yencEncode x) = x
  | [], _ => rfl
  | b :: rest, hx => by
      have hb : b < 256 := hx b (List.mem_cons_self b rest)
      have hrest : ∀ a ∈ rest, a < 256 := fun a ha => hx a (List.mem_cons_of_mem b ha)
      have ih := yencDecode_yencEncode rest hrest
      simp only [yencEncode]
      by_cases hesc : (b + 42) % 256 = 0 ∨ (b + 42) % 256 = 10 ∨
          (b + 42) % 256 = 13 ∨ (b + 42) % 256 = 61
      · rw [if_pos hesc]
        simp only [yencDecodeModel, if_true, List.cons.injEq]
        exact ⟨by omega, ih⟩
      · rw [if_neg hesc]
        have hne : (b + 42) % 256 ≠ 61 := by
          intro h
          exact hesc (Or.inr (Or.inr (Or.inr h)))
        cases hr : yencEncode rest with
        | nil =>
            have hrnil : rest = [] := yencEncode_eq_nil hr
            subst hrnil
            simp only [yencDecodeModel]
            congr 1
            omega
        | cons h t =>
            simp only [yencDecodeModel]
            rw [if_neg hne, ← hr, ih]
            congr 1
            omega

theorem yenc_roundTrip (x : List Nat) (hx : ∀ b ∈ x, b < 256) :
    decodeData (yencEncode x) .yenc = some x := by
  simp only [decodeData, map_mod256_eq_self (yencEncode x) (yencEncode_lt256 x),
    yencDecode_yencEncode x hx]

theorem b64CharVal_b64CharOf : ∀ v, v < 64 → b64CharVal (b64CharOf v) = some v := by
  decide

theorem b64CharOf_ne_61 (v : Nat) : b64CharOf v ≠ 61 := by
  unfold b64CharOf
  split_ifs <;> omega

theorem b64CharOf_ge_43 (v : Nat) : 43 ≤ b64CharOf v := by
  unfold b64CharOf
  split_ifs <;> omega

theorem isJsWhitespace_false {c : Nat} (h : 33 ≤ c) : isJsWhitespace c = false := by
  simp only [isJsWhitespace]
  simp only [Bool.or_eq_false_iff, decide_eq_false_iff_not]
  omega

theorem b64_filter_id {l : List Nat} (h : ∀ c ∈ l, 33 ≤ c) :
    l.filter (fun c => ! isJsWhitespace c) = l := by
  rw [List.filter_eq_self]
  intro a ha
  rw [isJsWhitespace_false (h a ha)]
  rfl

theorem b64Encode_ge_43 : ∀ (x : List Nat), ∀ c ∈ b64Encode x, 43 ≤ c
  | [] => by simp [b64Encode]
  | [a] => by
      intro c hc
      simp only [b64Encode, List.mem_cons, List.not_mem_nil, or_false] at hc
      rcases hc with rfl | rfl | rfl | rfl
      · exact b64CharOf_ge_43 _
      · exact b64CharOf_ge_43 _
      · omega
      · omega
  | [a, b] => by
      intro c hc
      simp only [b64Encode, List.mem_cons, List.not_mem_nil, or_false] at hc
      rcases hc with rfl | rfl | rfl | rfl
      · exact b64CharOf_ge_43 _
      · exact b64CharOf_ge_43 _
      · exact b64CharOf_ge_43 _
      · omega
  | a :: b :: c :: y' => by
      intro d hd
      simp only [b64Encode, List.mem_cons] at hd
      rcases hd with rfl | rfl | rfl | rfl | hd
      · exact b64CharOf_ge_43 _
      · exact b64CharOf_ge_43 _
      · exact b64CharOf_ge_43 _
      · exact b64CharOf_ge_43 _
      · exact b64Encode_ge_43 y' d hd

theorem b64Encode_aligned_ne61 : ∀ (y : List Nat), y.length % 3 = 0 →
    ∀ c ∈ b64Encode y, c ≠ 61
  | [], _ => by simp [b64Encode]
  | [a], h => by simp at h
  | [a, b], h => by simp at h
  | a :: b :: c :: y', h => by
      intro d hd
      have h' : y'.length % 3 = 0 := by
        simp only [List.length_cons] at h
        omega
      simp only [b64Encode, List.mem_cons] at hd
      rcases hd with rfl | rfl | rfl | rfl | hd
      · exact b64CharOf_ne_61 _
      · exact b64CharOf_ne_61 _
      · exact b64CharOf_ne_61 _
      · exact b64CharOf_ne_61 _
      · exact b64Encode_aligned_ne61 y' h' d hd

theorem b64Encode_length_mod4 : ∀ (x : List Nat), (b64Encode x).length % 4 = 0
  | [] => rfl
  | [a] => by simp [b64Encode]
  | [a, b] => by simp [b64Encode]
  | a :: b :: c :: y' => by
      simp only [b64Encode, List.length_cons]
      have := b64Encode_length_mod4 y'
      omega

theorem b64TrimPad_eq_self {l : List Nat} (h61 : ∀ c ∈ l, c ≠ 61) :
    b64TrimPad l = l := by
  unfold b64TrimPad
  split
  · split
    · rename_i r heq
      exfalso
      have h1 : (61 : Nat) ∈ l.reverse := by
        rw [heq]
        simp
      exact h61 61 (List.mem_reverse.mp h1) rfl
    · rename_i r heq
      exfalso
      have h1 : (61 : Nat) ∈ l.reverse := by
        rw [heq]
        simp
      exact h61 61 (List.mem_reverse.mp h1) rfl
    · rfl
  · rfl

theorem b64TrimPad_pad2 (A : List Nat) (c1 c2 : Nat) (hA4 : A.length % 4 = 0) :
    b64TrimPad (A ++ [c1, c2, 61, 61]) = A ++ [c1, c2] := by
  have hrev : (A ++ [c1, c2, 61, 61]).reverse = 61 :: 61 :: (c2 :: c1 :: A.reverse) := by
    simp
  have hlen : (A ++ [c1, c2, 61, 61]).length % 4 = 0 := by
    simp only [List.length_append, List.length_cons, List.length_nil]
    omega
  unfold b64TrimPad
  rw [if_pos hlen, hrev]
  simp

theorem b64TrimPad_pad1 (A : List Nat) (c1 c2 c3 : Nat) (hA4 : A.length % 4 = 0)
    (hc3 : c3 ≠ 61) :
    b64TrimPad (A ++ [c1, c2, c3, 61]) = A ++ [c1, c2, c3] := by
  have hrev : (A ++ [c1, c2, c3, 61]).reverse = 61 :: c3 :: c2 :: c1 :: A.reverse := by
    simp
  have hlen : (A ++ [c1, c2, c3, 61]).length % 4 = 0 := by
    simp only [List.length_append, List.length_cons, List.length_nil]
    omega
  unfold b64TrimPad
  rw [if_pos hlen, hrev]
  split
  · rename_i r heq
    exfalso
    simp only [List.cons.injEq, true_and] at heq
    exact hc3 heq.1
  · rename_i r heq
    simp only [List.cons.injEq, true_and] at heq
    rw [← heq]
    simp
  · rename_i hne1 hne2
    exact ((hne2 (c3 :: c2 :: c1 :: A.reverse)) rfl).elim

theorem b64Core_cons_group (a b c : Nat) (ha : a < 256) (hb : b < 256) (hc : c < 256)
    (M : List Nat) :
    b64CoreDecode (b64CharOf (a / 4) :: b64CharOf ((a % 4) * 16 + b / 16) ::
        b64CharOf ((b % 16) * 4 + c / 64) :: b64CharOf (c % 64) :: M)
      = (b64CoreDecode M).map (fun w => a :: b :: c :: w) := by
  have h1 := b64CharVal_b64CharOf (a / 4) (by omega)
  have h2 := b64CharVal_b64CharOf ((a % 4) * 16 + b / 16) (by omega)
  have h3 := b64CharVal_b64CharOf ((b % 16) * 4 + c / 64) (by omega)
  have h4 := b64CharVal_b64CharOf (c % 64) (by omega)
  unfold b64CoreDecode
  cases hm : M.mapM b64CharVal with
  | none =>
      simp only [List.mapM_cons, h1, h2, h3, h4, hm, Option.pure_def,
        Option.bind_eq_bind, Option.some_bind, Option.none_bind, Option.map_none']
  | some ws =>
      simp only [List.mapM_cons, h1, h2, h3, h4, hm, Option.pure_def,
        Option.bind_eq_bind, Option.some_bind, Option.map_some']
      simp only [sextetsToBytes, Option.some.injEq, List.cons.injEq]
      refine ⟨by omega, by omega, by omega, trivial⟩

theorem b64Core_two (a : Nat) (ha : a < 256) :
    b64CoreDecode [b64CharOf (a / 4), b64CharOf ((a % 4) * 16)] = some [a] := by
  have h1 := b64CharVal_b64CharOf (a / 4) (by omega)
  have h2 := b64CharVal_b64CharOf ((a % 4) * 16) (by omega)
  unfold b64CoreDecode
  simp only [List.mapM_cons, h1, h2, List.mapM_nil, Option.pure_def,
    Option.bind_eq_bind, Option.some_bind, Option.map_some']
  simp only [sextetsToBytes, Option.some.injEq, List.cons.injEq]
  refine ⟨by omega, trivial⟩

theorem b64Core_three (a b : Nat) (ha : a < 256) (hb : b < 256) :
    b64CoreDecode [b64CharOf (a / 4), b64CharOf ((a % 4) * 16 + b / 16),
      b64CharOf ((b % 16) * 4)] = some [a, b] := by
  have h1 := b64CharVal_b64CharOf (a / 4) (by omega)
  have h2 := b64CharVal_b64CharOf ((a % 4) * 16 + b / 16) (by omega)
  have h3 := b64CharVal_b64CharOf ((b % 16) * 4) (by omega)
  unfold b64CoreDecode
  simp only [List.mapM_cons, h1, h2, h3, List.mapM_nil, Option.pure_def,
    Option.bind_eq_bind, Option.some_bind, Option.map_some']
  simp only [sextetsToBytes, Option.some.injEq, List.cons.injEq]
  refine ⟨by omega, by omega, trivial⟩

theorem b64Core_encode_append : ∀ (y : List Nat), y.length % 3 = 0 →
    (∀ e ∈ y, e < 256) →
    ∀ t : List Nat, b64CoreDecode (b64Encode y ++ t)
      = (b64CoreDecode t).map (fun w => y ++ w)
  | [], _, _ => by
      intro t
      simp only [b64Encode, List.nil_append]
      cases b64CoreDecode t <;> simp
  | [a], h, _ => by simp at h
  | [a, b], h, _ => by simp at h
  | a :: b :: c :: y', h, he => by
      intro t
      have h' : y'.length % 3 = 0 := by
        simp only [List.length_cons] at h
        omega
      have ha : a < 256 := he a (by simp)
      have hb : b < 256 := he b (by simp)
      have hc : c < 256 := he c (by simp)
      have he' : ∀ e ∈ y', e < 256 := fun e h2 => he e (by simp [h2])
      have ih := b64Core_encode_append y' h' he' t
      simp only [b64Encode, List.cons_append, List.append_eq]
      rw [b64Core_cons_group a b c ha hb hc _, ih]
      cases b64CoreDecode t <;> simp

theorem atob_b64Encode (x : List Nat) (hx : ∀ b ∈ x, b < 256) :
    atobModel (b64Encode x) = some x := by
  obtain ⟨y, z, hyz, hy3, hzlt⟩ :
      ∃ y z : List Nat, x = y ++ z ∧ y.length % 3 = 0 ∧ z.length < 3 := by
    refine ⟨x.take (x.length - x.length % 3), x.drop (x.length - x.length % 3),
      (List.take_append_drop _ x).symm, ?_, ?_⟩
    · rw [List.length_take, Nat.min_eq_left (by omega)]
      omega
    · rw [List.length_drop]
      omega
  subst hyz
  have hyb : ∀ e ∈ y, e < 256 := fun e he => hx e (List.mem_append_left _ he)
  have hzb : ∀ e ∈ z, e < 256 := fun e he => hx e (List.mem_append_right _ he)
  have hlen4 := b64Encode_length_mod4 y
  rcases z with _ | ⟨a, _ | ⟨b, _ | ⟨c, t⟩⟩⟩
  · have hne61 := b64Encode_aligned_ne61 y hy3
    have hge : ∀ c ∈ b64Encode (y ++ []), 43 ≤ c := b64Encode_ge_43 _
    rw [List.append_nil] at *
    simp only [atobModel]
    rw [b64_filter_id (fun c hc => by have := hge c hc; omega),
      b64TrimPad_eq_self hne61, if_neg (by omega)]
    show b64CoreDecode (b64Encode y) = some y
    have h := b64Core_encode_append y hy3 hyb []
    rw [List.append_nil] at h
    rw [h, show b64CoreDecode [] = some [] from rfl, Option.map_some']
    simp
  · have ha : a < 256 := hzb a (by simp)
    have henc : b64Encode (y ++ [a])
        = b64Encode y ++ [b64CharOf (a / 4), b64CharOf ((a % 4) * 16), 61, 61] := by
      rw [b64Encode_append y [a] hy3]
      simp only [b64Encode]
    have hge : ∀ c ∈ b64Encode y
        ++ [b64CharOf (a / 4), b64CharOf ((a % 4) * 16), 61, 61], 43 ≤ c := by
      rw [← henc]
      exact b64Encode_ge_43 _
    simp only [atobModel]
    rw [henc, b64_filter_id (fun c hc => by have := hge c hc; omega),
      b64TrimPad_pad2 _ _ _ hlen4,
      if_neg (by simp only [List.length_append, List.length_cons, List.length_nil]; omega)]
    show b64CoreDecode (b64Encode y ++ [b64CharOf (a / 4), b64CharOf ((a % 4) * 16)])
      = some (y ++ [a])
    rw [b64Core_encode_append y hy3 hyb _, b64Core_two a ha]
    simp
  · have ha : a < 256 := hzb a (by simp)
    have hb : b < 256 := hzb b (by simp)
    have henc : b64Encode (y ++ [a, b])
        = b64Encode y ++ [b64CharOf (a / 4), b64CharOf ((a % 4) * 16 + b / 16),
            b64CharOf ((b % 16) * 4), 61] := by
      rw [b64Encode_append y [a, b] hy3]
      simp only [b64Encode]
    have hge : ∀ c ∈ b64Encode y
        ++ [b64CharOf (a / 4), b64CharOf ((a % 4) * 16 + b / 16),
            b64CharOf ((b % 16) * 4), 61], 43 ≤ c := by
      rw [← henc]
      exact b64Encode_ge_43 _
    simp only [atobModel]
    rw [henc, b64_filter_id (fun c hc => by have := hge c hc; omega),
      b64TrimPad_pad1 _ _ _ _ hlen4 (b64CharOf_ne_61 _),
      if_neg (by simp only [List.length_append, List.length_cons, List.length_nil]; omega)]
    show b64CoreDecode (b64Encode y ++ [b64CharOf (a / 4),
        b64CharOf ((a % 4) * 16 + b / 16), b64CharOf ((b % 16) * 4)])
      = some (y ++ [a, b])
    rw [b64Core_encode_append y hy3 hyb _, b64Core_three a b ha hb]
    simp
  · exfalso
    simp only [List.length_cons] at hzlt
    omega

theorem base32CharVal_b32CharOf : ∀ v, v < 32 → base32CharVal (b32CharOf v) = some v := by
  decide

theorem b32CharOf_ne_61 : ∀ v, v < 32 → b32CharOf v ≠ 61 := by
  decide

theorem base32_vals_cons (v : Nat) (hv : v < 32) (L : List Nat) :
    ((b32CharOf v :: L).filter (fun c => c ≠ 61)).filterMap base32CharVal
      = v :: (L.filter (fun c => c ≠ 61)).filterMap base32CharVal := by
  rw [List.filter_cons_of_pos]
  · rw [List.filterMap_cons_some (base32CharVal_b32CharOf v hv)]
  · simp [b32CharOf_ne_61 v hv]

theorem base32_vals_cons_61 (L : List Nat) :
    ((61 :: L).filter (fun c => c ≠ 61)).filterMap base32CharVal
      = (L.filter (fun c => c ≠ 61)).filterMap base32CharVal := by
  rw [List.filter_cons_of_neg]
  simp

theorem bytesOfBits_nil : bytesOfBits [] = [] := rfl

theorem bytesOfBits_one (u : Nat) : bytesOfBits [u] = [] := rfl

theorem bytesOfBits_two (u v : Nat) : bytesOfBits [u, v] = [] := rfl

theorem bytesOfBits_three (u v w : Nat) : bytesOfBits [u, v, w] = [] := rfl

theorem bytesOfBits_four (u v w u2 : Nat) : bytesOfBits [u, v, w, u2] = [] := rfl

set_option maxHeartbeats 1000000 in
theorem base32Model_cons_group (a b c d e : Nat) (ha : a < 256) (hb : b < 256)
    (hc : c < 256) (hd : d < 256) (he : e < 256) (M : List Nat) :
    base32DecodeModel (b32CharOf (a / 8) :: b32CharOf ((a % 8) * 4 + b / 64) ::
      b32CharOf (b / 2 % 32) :: b32CharOf ((b % 2) * 16 + c / 16) ::
      b32CharOf ((c % 16) * 2 + d / 128) :: b32CharOf (d / 4 % 32) ::
      b32CharOf ((d % 4) * 8 + e / 32) :: b32CharOf (e % 32) :: M)
      = a :: b :: c :: d :: e :: base32DecodeModel M := by
  unfold base32DecodeModel
  rw [base32_vals_cons _ (by omega), base32_vals_cons _ (by omega),
    base32_vals_cons _ (by omega), base32_vals_cons _ (by omega),
    base32_vals_cons _ (by omega), base32_vals_cons _ (by omega),
    base32_vals_cons _ (by omega), base32_vals_cons _ (by omega)]
  simp only [List.map_cons, List.flatten_cons, bits5, List.cons_append,
    List.nil_append]
  simp only [bytesOfBits, byteOfBits, List.cons.injEq, and_true]
  refine ⟨by omega, by omega, by omega, by omega, by omega⟩

theorem base32Model_g1 (a : Nat) (ha : a < 256) :
    base32DecodeModel [b32CharOf (a / 8), b32CharOf ((a % 8) * 4),
      61, 61, 61, 61, 61, 61] = [a] := by
  unfold base32DecodeModel
  rw [base32_vals_cons _ (by omega), base32_vals_cons _ (by omega),
    base32_vals_cons_61, base32_vals_cons_61, base32_vals_cons_61,
    base32_vals_cons_61, base32_vals_cons_61, base32_vals_cons_61]
  simp only [List.filter_nil, List.filterMap_nil, List.map_cons, List.map_nil,
    List.flatten_cons, List.flatten_nil, bits5, List.cons_append, List.nil_append,
    List.append_nil]
  simp only [bytesOfBits, byteOfBits, bytesOfBits_two, List.cons.injEq, and_true]
  omega

theorem base32Model_g2 (a b : Nat) (ha : a < 256) (hb : b < 256) :
    base32DecodeModel [b32CharOf (a / 8), b32CharOf ((a % 8) * 4 + b / 64),
      b32CharOf (b / 2 % 32), b32CharOf ((b % 2) * 16), 61, 61, 61, 61] = [a, b] := by
  unfold base32DecodeModel
  rw [base32_vals_cons _ (by omega), base32_vals_cons _ (by omega),
    base32_vals_cons _ (by omega), base32_vals_cons _ (by omega),
    base32_vals_cons_61, base32_vals_cons_61, base32_vals_cons_61,
    base32_vals_cons_61]
  simp only [List.filter_nil, List.filterMap_nil, List.map_cons, List.map_nil,
    List.flatten_cons, List.flatten_nil, bits5, List.cons_append, List.nil_append,
    List.append_nil]
  simp only [bytesOfBits, byteOfBits, bytesOfBits_four, List.cons.injEq, and_true]
  refine ⟨by omega, by omega⟩

theorem base32Model_g3 (a b c : Nat) (ha : a < 256) (hb : b < 256) (hc : c < 256) :
    base32DecodeModel [b32CharOf (a / 8), b32CharOf ((a % 8) * 4 + b / 64),
      b32CharOf (b / 2 % 32), b32CharOf ((b % 2) * 16 + c / 16),
      b32CharOf ((c % 16) * 2), 61, 61, 61] = [a, b, c] := by
  unfold base32DecodeModel
  rw [base32_vals_cons _ (by omega), base32_vals_cons _ (by omega),
    base32_vals_cons _ (by omega), base32_vals_cons _ (by omega),
    base32_vals_cons _ (by omega), base32_vals_cons_61, base32_vals_cons_61,
    base32_vals_cons_61]
  simp only [List.filter_nil, List.filterMap_nil, List.map_cons, List.map_nil,
    List.flatten_cons, List.flatten_nil, bits5, List.cons_append, List.nil_append,
    List.append_nil]
  simp only [bytesOfBits, byteOfBits, bytesOfBits_one, List.cons.injEq, and_true]
  refine ⟨by omega, by omega, by omega⟩

theorem base32Model_g4 (a b c d : Nat) (ha : a < 256) (hb : b < 256) (hc : c < 256)
    (hd : d < 256) :
    base32DecodeModel [b32CharOf (a / 8), b32CharOf ((a % 8) * 4 + b / 64),
      b32CharOf (b / 2 % 32), b32CharOf ((b % 2) * 16 + c / 16),
      b32CharOf ((c % 16) * 2 + d / 128), b32CharOf (d / 4 % 32),
      b32CharOf ((d % 4) * 8), 61] = [a, b, c, d] := by
  unfold base32DecodeModel
  rw [base32_vals_cons _ (by omega), base32_vals_cons _ (by omega),
    base32_vals_cons _ (by omega), base32_vals_cons _ (by omega),
    base32_vals_cons _ (by omega), base32_vals_cons _ (by omega),
    base32_vals_cons _ (by omega), base32_vals_cons_61]
  simp only [List.filter_nil, List.filterMap_nil, List.map_cons, List.map_nil,
    List.flatten_cons, List.flatten_nil, bits5, List.cons_append, List.nil_append,
    List.append_nil]
  simp only [bytesOfBits, byteOfBits, bytesOfBits_three, List.cons.injEq, and_true]
  refine ⟨by omega, by omega, by omega, by omega⟩

theorem base32Model_encode_append : ∀ (y : List Nat), y.length % 5 = 0 →
    (∀ e ∈ y, e < 256) → ∀ t : List Nat,
    base32DecodeModel (base32Encode y ++ t) = y ++ base32DecodeModel t
  | [], _, _ => by
      intro t
      simp [base32Encode]
  | [a], h, _ => by simp at h
  | [a, b], h, _ => by simp at h
  | [a, b, c], h, _ => by simp at h
  | [a, b, c, d], h, _ => by simp at h
  | a :: b :: c :: d :: e :: y', h, hby => by
      intro t
      have h' : y'.length % 5 = 0 := by
        simp only [List.length_cons] at h
        omega
      have ha : a < 256 := hby a (by simp)
      have hb : b < 256 := hby b (by simp)
      have hc : c < 256 := hby c (by simp)
      have hd : d < 256 := hby d (by simp)
      have he : e < 256 := hby e (by simp)
      have hby' : ∀ e2 ∈ y', e2 < 256 := fun e2 h2 => hby e2 (by simp [h2])
      have ih := base32Model_encode_append y' h' hby' t
      simp only [base32Encode, List.cons_append, List.append_eq]
      rw [base32Model_cons_group a b c d e ha hb hc hd he _, ih]

theorem base32_roundTrip (x : List Nat) (hx : ∀ b ∈ x, b < 256) :
    decodeData (base32Encode x) .base32 = some x := by
  obtain ⟨y, z, hyz, hy5, hzlt⟩ :
      ∃ y z : List Nat, x = y ++ z ∧ y.length % 5 = 0 ∧ z.length < 5 := by
    refine ⟨x.take (x.length - x.length % 5), x.drop (x.length - x.length % 5),
      (List.take_append_drop _ x).symm, ?_, ?_⟩
    · rw [List.length_take, Nat.min_eq_left (by omega)]
      omega
    · rw [List.length_drop]
      omega
  subst hyz
  have hyb : ∀ e ∈ y, e < 256 := fun e he => hx e (List.mem_append_left _ he)
  have hzb : ∀ e ∈ z, e < 256 := fun e he => hx e (List.mem_append_right _ he)
  simp only [decodeData, Option.some.injEq]
  rw [base32Encode_append y z hy5]
  rw [base32Model_encode_append y hy5 hyb (base32Encode z)]
  rcases z with _ | ⟨a, _ | ⟨b, _ | ⟨c, _ | ⟨d, _ | ⟨e, t⟩⟩⟩⟩⟩
  · simp [base32Encode, base32DecodeModel, bytesOfBits_nil]
  · have ha : a < 256 := hzb a (by simp)
    simp only [base32Encode]
    rw [base32Model_g1 a ha]
  · have ha : a < 256 := hzb a (by simp)
    have hb : b < 256 := hzb b (by simp)
    simp only [base32Encode]
    rw [base32Model_g2 a b ha hb]
  · have ha : a < 256 := hzb a (by simp)
    have hb : b < 256 := hzb b (by simp)
    have hc : c < 256 := hzb c (by simp)
    simp only [base32Encode]
    rw [base32Model_g3 a b c ha hb hc]
  · have ha : a < 256 := hzb a (by simp)
    have hb : b < 256 := hzb b (by simp)
    have hc : c < 256 := hzb c (by simp)
    have hd : d < 256 := hzb d (by simp)
    simp only [base32Encode]
    rw [base32Model_g4 a b c d ha hb hc hd]
  · exfalso
    simp only [List.length_cons] at hzlt
    omega

/-- For every codec except base85, the client decoder inverts the backend
encoder on byte-valued input. -/
theorem decode_encode_roundTrip (c : Codec) (hc : c ≠ Codec.base85) (x : List Nat)
    (hx : ∀ b ∈ x, b < 256) : decodeData (encodeData c x) c = some x := by
  cases c with
  | base64 => exact atob_b64Encode x hx
  | hex => exact hex_roundTrip x hx
  | base32 => exact base32_roundTrip x hx
  | base85 => exact absurd rfl hc
  | uuencode => exact atob_b64Encode x hx
  | yenc => exact yenc_roundTrip x hx

theorem mapM_decode_encode (c : Codec) (hc : c ≠ Codec.base85) :
    ∀ (ws : List (List Nat)), (∀ W ∈ ws, ∀ b ∈ W, b < 256) →
    (ws.map (encodeData c)).mapM (fun ch => decodeData ch c) = some ws
  | [], _ => rfl
  | W :: ws, h => by
      have hW := decode_encode_roundTrip c hc W (h W (List.mem_cons_self W ws))
      have hws := mapM_decode_encode c hc ws
        (fun W2 h2 => h W2 (List.mem_cons_of_mem W h2))
      simp only [List.map_cons, List.mapM_cons, hW, hws, Option.pure_def,
        Option.bind_eq_bind, Option.some_bind]

/-- C3 (amended): for every codec, file and target encoded size,
concatenating the encoded output of all ChunkPlan windows in index order
equals encoding the whole file in one call; and for byte-valued files
under every codec except base85 — whose client decoder is a documented
base64 fallback — chunk-mode decoding (decode each chunk individually and
concatenate the decoded bytes) agrees with full-mode decoding
(concatenate the encoded chunks and decode once), both recovering the
original file. -/
theorem chunk_reassembly_modes (c : Codec) (f : List Nat) (T : Nat) :
    ((splitIntoWindows (rawWindow c T) f).map (encodeData c)).flatten
      = encodeData c f ∧
    ((∀ b ∈ f, b < 256) → c ≠ Codec.base85 →
      chunkModeDecode c ((splitIntoWindows (rawWindow c T) f).map (encodeData c))
        = fullModeDecode c ((splitIntoWindows (rawWindow c T) f).map (encodeData c)) ∧
      chunkModeDecode c ((splitIntoWindows (rawWindow c T) f).map (encodeData c))
        = some f) := by
  refine ⟨chunk_reassembly c f T, fun hbytes hc => ?_⟩
  have hws : ∀ W ∈ splitIntoWindows (rawWindow c T) f, ∀ b ∈ W, b < 256 := by
    intro W hW b hb
    have hmem : b ∈ (splitIntoWindows (rawWindow c T) f).flatten :=
      List.mem_flatten.mpr ⟨W, hW, hb⟩
    rw [splitIntoWindows_flatten] at hmem
    exact hbytes b hmem
  have hchunk : chunkModeDecode c
      ((splitIntoWindows (rawWindow c T) f).map (encodeData c)) = some f := by
    unfold chunkModeDecode
    rw [mapM_decode_encode c hc (splitIntoWindows (rawWindow c T) f) hws,
      Option.map_some', splitIntoWindows_flatten]
  have hfull : fullModeDecode c
      ((splitIntoWindows (rawWindow c T) f).map (encodeData c)) = some f := by
    unfold fullModeDecode
    rw [chunk_reassembly c f T]
    exact decode_encode_roundTrip c hc f hbytes
  rw [hchunk, hfull]
  exact ⟨rfl, rfl⟩

theorem chunk_reassembly_modes_witness :
    (((splitIntoWindows (rawWindow .base64 6) [65, 66, 67, 68, 69]).map
        (encodeData .base64)).flatten = encodeData .base64 [65, 66, 67, 68, 69] ∧
      chunkModeDecode .base64 ((splitIntoWindows (rawWindow .base64 6)
          [65, 66, 67, 68, 69]).map (encodeData .base64))
        = fullModeDecode .base64 ((splitIntoWindows (rawWindow .base64 6)
          [65, 66, 67, 68, 69]).map (encodeData .base64)) ∧
      chunkModeDecode .base64 ((splitIntoWindows (rawWindow .base64 6)
          [65, 66, 67, 68, 69]).map (encodeData .base64))
        = some [65, 66, 67, 68, 69]) :=
  ⟨(chunk_reassembly_modes .base64 [65, 66, 67, 68, 69] 6).1,
    (chunk_reassembly_modes .base64 [65, 66, 67, 68, 69] 6).2
      (by decide) (by decide)⟩

/-- C3 counterexample: under base85 the client-side chunk-mode and
full-mode decodes disagree.  For the 8-byte file
`[100, 192, 5, 160, 100, 192, 5, 160]` at target size 5 the planner
yields two 4-byte windows, each encoding to the 5-character ASCII85 text
`AAAAA`; the base64 fallback decoder rejects each 5-character chunk
(its stripped length is 1 mod 4), so chunk mode fails, while decoding the
10-character concatenation succeeds. -/
theorem chunk_modes_differ_base85 :
    splitIntoWindows (rawWindow .base85 5) [100, 192, 5, 160, 100, 192, 5, 160]
      = [[100, 192, 5, 160], [100, 192, 5, 160]] ∧
    chunkModeDecode .base85 ((splitIntoWindows (rawWindow .base85 5)
        [100, 192, 5, 160, 100, 192, 5, 160]).map (encodeData .base85)) = none ∧
    fullModeDecode .base85 ((splitIntoWindows (rawWindow .base85 5)
        [100, 192, 5, 160, 100, 192, 5, 160]).map (encodeData .base85))
      = some [0, 0, 0, 0, 0, 0, 0] := by
  decide

/-! ## Lemmas about the IndexedDB chunk store -/

theorem find?_map_replace (p : StoredChunk → Bool) (g : StoredChunk → StoredChunk)
    (h1 : ∀ x, p (g x) = p x) (h2 : ∀ x, p x = true → g x = x) :
    ∀ s : List StoredChunk, (s.map g).find? p = s.find? p := by
  intro s
  induction s with
  | nil => rfl
  | cons a l ih =>
      by_cases hpa : p a = true
      · simp [List.find?_cons, h1, hpa, h2 a hpa]
      · have hpa' : p a = false := by simpa using hpa
        simp [List.find?_cons, h1, hpa', ih]

theorem getChunk_storeChunk_other (key : String) (i n : Nat) (data : List Nat)
    (ts : Nat) (s : Store) (hne : i ≠ n) :
    getChunk key n (storeChunk key i data ts s) = getChunk key n s := by
  unfold storeChunk getChunk
  set e : StoredChunk :=
    { fileId := key, chunkNumber := i, data := data, timestamp := ts } with he
  have hsk : ∀ x : StoredChunk,
      sameKey e x = true ↔ (x.fileId = key ∧ x.chunkNumber = i) := by
    intro x
    simp only [sameKey, decide_eq_true_eq]
    constructor
    · intro h
      exact ⟨h.1.symm, h.2.symm⟩
    · intro h
      exact ⟨h.1.symm, h.2.symm⟩
  have hen : decide (e.chunkNumber = n) = false :=
    decide_eq_false_iff_not.mpr hne
  have hpe : (decide (e.fileId = key) && decide (e.chunkNumber = n)) = false := by
    rw [hen, Bool.and_false]
  by_cases hany : s.any (sameKey e)
  · rw [if_pos hany, find?_map_replace]
    · intro x
      by_cases hs : sameKey e x = true
      · rw [if_pos hs]
        have hx := (hsk x).mp hs
        have hxn : decide (x.chunkNumber = n) = false :=
          decide_eq_false_iff_not.mpr (by rw [hx.2]; exact hne)
        rw [hpe, hxn, Bool.and_false]
      · rw [if_neg hs]
    · intro x hx
      have hx' : x.fileId = key ∧ x.chunkNumber = n := by simpa using hx
      have hs : ¬ sameKey e x = true := by
        rw [hsk x]
        intro hcontra
        exact hne (by rw [← hcontra.2, hx'.2])
      rw [if_neg hs]
  · rw [if_neg hany, List.find?_append,
      List.find?_cons_of_neg _ (by simp [hne]), List.find?_nil, Option.or_none]

/-- C8: once a chunk is cached under a key, a later sequential download
pass leaves its stored bytes unchanged: the pass skips every index that is
already present, so a read of chunk `n` still returns the bytes first
written for `n`. -/
theorem cachedChunk_immutable (key : String) (total : Nat)
    (fetch : Nat → List Nat) (ts : Nat → Nat) (s : Store) (n : Nat)
    (d : List Nat) (h : getChunk key n s = some d) :
    getChunk key n (sequentialPass key total fetch ts s) = some d := by
  unfold sequentialPass
  generalize List.range total = l
  induction l generalizing s with
  | nil => simpa using h
  | cons i l ih =>
      simp only [List.foldl_cons]
      by_cases hs : (getChunk key i s).isSome = true
      · rw [if_pos hs]
        exact ih s h
      · rw [if_neg hs]
        apply ih
        have hin : i ≠ n := by
          intro he
          rw [he, h] at hs
          simp at hs
        rw [getChunk_storeChunk_other key i n (fetch i) (ts i) s hin]
        exact h

theorem cachedChunk_immutable_witness :
    getChunk "f" 0 [⟨"f", 0, [9], 5⟩] = some [9] ∧
    getChunk "f" 0
        (sequentialPass "f" 2 (fun i => [i + 1]) (fun _ => 7) [⟨"f", 0, [9], 5⟩])
      = some [9] :=
  ⟨by decide,
    cachedChunk_immutable "f" 2 (fun i => [i + 1]) (fun _ => 7)
      [⟨"f", 0, [9], 5⟩] 0 [9] (by decide)⟩

/-- C10: the list returned by `getAllChunksForFile` is determined solely
by which records of the file are in the store, not by the order they were
stored in: any permutation of the store yields the same output, and the
records are returned in ascending `chunkNumber` order. -/
theorem getAllChunksForFile_sorted_by_index (fid : String) (s1 s2 : Store)
    (hperm : s1.Perm s2)
    (hnd : (s1.filter (fun e => e.fileId = fid)).Pairwise
      (fun a b => a.chunkNumber ≠ b.chunkNumber)) :
    getAllChunksForFile fid s1 = getAllChunksForFile fid s2 ∧
    ((s1.filter (fun e => e.fileId = fid)).mergeSort
        (fun a b => a.chunkNumber ≤ b.chunkNumber)).Pairwise
      (fun a b => a.chunkNumber ≤ b.chunkNumber) := by
  have htrans : ∀ a b c : StoredChunk,
      (decide (a.chunkNumber ≤ b.chunkNumber)) = true →
      (decide (b.chunkNumber ≤ c.chunkNumber)) = true →
      (decide (a.chunkNumber ≤ c.chunkNumber)) = true := by
    intro a b c h1 h2
    simp only [decide_eq_true_eq] at h1 h2 ⊢
    omega
  have htotal : ∀ a b : StoredChunk,
      ((decide (a.chunkNumber ≤ b.chunkNumber))
        || (decide (b.chunkNumber ≤ a.chunkNumber))) = true := by
    intro a b
    simpa using Nat.le_total a.chunkNumber b.chunkNumber
  have hsorted1 := List.sorted_mergeSort htrans htotal
    (s1.filter (fun e => e.fileId = fid))
  have hsorted2 := List.sorted_mergeSort htrans htotal
    (s2.filter (fun e => e.fileId = fid))
  have hle1 : ((s1.filter (fun e => e.fileId = fid)).mergeSort
      (fun a b => a.chunkNumber ≤ b.chunkNumber)).Pairwise
      (fun a b => a.chunkNumber ≤ b.chunkNumber) := by
    refine hsorted1.imp ?_
    intro a b hab
    simpa using hab
  have hle2 : ((s2.filter (fun e => e.fileId = fid)).mergeSort
      (fun a b => a.chunkNumber ≤ b.chunkNumber)).Pairwise
      (fun a b => a.chunkNumber ≤ b.chunkNumber) := by
    refine hsorted2.imp ?_
    intro a b hab
    simpa using hab
  refine ⟨?_, hle1⟩
  have hpermf : (s1.filter (fun e => e.fileId = fid)).Perm
      (s2.filter (fun e => e.fileId = fid)) := hperm.filter _
  have hperm12 : ((s1.filter (fun e => e.fileId = fid)).mergeSort
      (fun a b => a.chunkNumber ≤ b.chunkNumber)).Perm
      ((s2.filter (fun e => e.fileId = fid)).mergeSort
        (fun a b => a.chunkNumber ≤ b.chunkNumber)) :=
    ((List.mergeSort_perm _ _).trans hpermf).trans
      (List.mergeSort_perm _ _).symm
  have hne1 : ((s1.filter (fun e => e.fileId = fid)).mergeSort
      (fun a b => a.chunkNumber ≤ b.chunkNumber)).Pairwise
      (fun a b => a.chunkNumber ≠ b.chunkNumber) := by
    exact ((List.mergeSort_perm _ _).pairwise_iff
      (fun h => Ne.symm h)).mpr hnd
  have hlt1 : ((s1.filter (fun e => e.fileId = fid)).mergeSort
      (fun a b => a.chunkNumber ≤ b.chunkNumber)).Pairwise
      (fun a b => a.chunkNumber < b.chunkNumber) := by
    refine (hle1.and hne1).imp ?_
    intro a b hab
    omega
  have hne2 : ((s2.filter (fun e => e.fileId = fid)).mergeSort
      (fun a b => a.chunkNumber ≤ b.chunkNumber)).Pairwise
      (fun a b => a.chunkNumber ≠ b.chunkNumber) := by
    exact (hperm12.pairwise_iff (fun h => Ne.symm h)).mp hne1
  have hlt2 : ((s2.filter (fun e => e.fileId = fid)).mergeSort
      (fun a b => a.chunkNumber ≤ b.chunkNumber)).Pairwise
      (fun a b => a.chunkNumber < b.chunkNumber) := by
    refine (hle2.and hne2).imp ?_
    intro a b hab
    omega
  have heq : ((s1.filter (fun e => e.fileId = fid)).mergeSort
      (fun a b => a.chunkNumber ≤ b.chunkNumber))
      = ((s2.filter (fun e => e.fileId = fid)).mergeSort
        (fun a b => a.chunkNumber ≤ b.chunkNumber)) := by
    have hanti : IsAntisymm StoredChunk
        (fun a b => a.chunkNumber < b.chunkNumber) :=
      ⟨fun a b h1 h2 => absurd h2 (Nat.lt_asymm h1)⟩
    exact @List.eq_of_perm_of_sorted _ _ hanti _ _ hperm12 hlt1 hlt2
  unfold getAllChunksForFile
  rw [heq]

theorem getAllChunksForFile_sorted_by_index_witness :
    ([⟨"f", 1, [2], 9⟩, ⟨"f", 0, [1], 3⟩] : Store).Perm
        [⟨"f", 0, [1], 3⟩, ⟨"f", 1, [2], 9⟩] ∧
    (([⟨"f", 1, [2], 9⟩, ⟨"f", 0, [1], 3⟩] : Store).filter
        (fun e => e.fileId = "f")).Pairwise
      (fun a b => a.chunkNumber ≠ b.chunkNumber) ∧
    (getAllChunksForFile "f" [⟨"f", 1, [2], 9⟩, ⟨"f", 0, [1], 3⟩]
        = getAllChunksForFile "f" [⟨"f", 0, [1], 3⟩, ⟨"f", 1, [2], 9⟩] ∧
      ((([⟨"f", 1, [2], 9⟩, ⟨"f", 0, [1], 3⟩] : Store).filter
          (fun e => e.fileId = "f")).mergeSort
        (fun a b => a.chunkNumber ≤ b.chunkNumber)).Pairwise
        (fun a b => a.chunkNumber ≤ b.chunkNumber)) :=
  ⟨by decide, by decide,
    getAllChunksForFile_sorted_by_index "f"
      [⟨"f", 1, [2], 9⟩, ⟨"f", 0, [1], 3⟩]
      [⟨"f", 0, [1], 3⟩, ⟨"f", 1, [2], 9⟩] (by decide) (by decide)⟩

/-! ## Lemmas about the info service -/

theorem le_foldrMax {l : List Nat} {x : Nat} (hx : x ∈ l) :
    x ≤ l.foldr max 0 := by
  induction l with
  | nil => cases hx
  | cons a t ih =>
      simp only [List.foldr_cons]
      rcases List.mem_cons.mp hx with h | h
      · subst h
        exact Nat.le_max_left _ _
      · exact Nat.le_trans (ih h) (Nat.le_max_right _ _)

theorem foldrMax_le {l : List Nat} {m : Nat} (h : ∀ x ∈ l, x ≤ m) :
    l.foldr max 0 ≤ m := by
  induction l with
  | nil => exact Nat.zero_le m
  | cons a t ih =>
      simp only [List.foldr_cons]
      exact max_le (h a (by simp)) (ih (fun x hx => h x (by simp [hx])))

theorem cacheCount_of_range (cache : CacheArea) (k : Nat)
    (hk : ∀ i, i ∈ cache.map Prod.fst ↔ i < k) : cacheCount cache = k := by
  unfold cacheCount
  have hperm : (cache.map Prod.fst).dedup.Perm (List.range k) := by
    rw [List.perm_ext_iff_of_nodup (List.nodup_dedup _) (List.nodup_range k)]
    intro a
    rw [List.mem_dedup, List.mem_range]
    exact hk a
  rw [hperm.length_eq, List.length_range]

theorem lastCachedIndex_of_range (cache : CacheArea) (k : Nat) (hk0 : 0 < k)
    (hk : ∀ i, i ∈ cache.map Prod.fst ↔ i < k) :
    lastCachedIndex cache = k - 1 := by
  unfold lastCachedIndex
  apply Nat.le_antisymm
  · exact foldrMax_le (fun x hx => by have := (hk x).mp hx; omega)
  · exact le_foldrMax ((hk (k - 1)).mpr (by omega))

/-- C1: when the cache area of the requested encoding holds exactly the
chunk indices below `k`, `GetInfo` reports `is_processed = true` exactly
when `k` is positive and equals the planner's full window count (last
cached index at EOF); in that case it returns the actual cached-entry
count, and in every other case, including a partially processed encoding,
it returns the estimate formula with `is_processed = false`. -/
theorem getInfo_dual_mode (c : Codec) (n T k : Nat) (cache : CacheArea)
    (hk : ∀ i, i ∈ cache.map Prod.fst ↔ i < k) :
    ((getInfo c n T cache).is_processed = true ↔
      (0 < k ∧ k = windowCount (rawWindow c T) n)) ∧
    ((getInfo c n T cache).is_processed = true →
      (getInfo c n T cache).total_chunks = cacheCount cache) ∧
    ((getInfo c n T cache).is_processed = false →
      (getInfo c n T cache).total_chunks = estimateChunks c n T) := by
  have hcount := cacheCount_of_range cache k hk
  by_cases hcond : 0 < cacheCount cache ∧
      lastCachedIndex cache + 1 = windowCount (rawWindow c T) n
  · have hres : getInfo c n T cache =
        { total_chunks := cacheCount cache, is_processed := true } := by
      unfold getInfo
      rw [if_pos hcond]
    have hk0 : 0 < k := hcount ▸ hcond.1
    have hlast := lastCachedIndex_of_range cache k hk0 hk
    have h2 := hcond.2
    rw [hlast] at h2
    refine ⟨?_, fun _ => by rw [hres], fun hfalse => ?_⟩
    · rw [hres]
      exact ⟨fun _ => ⟨hk0, by omega⟩, fun _ => rfl⟩
    · rw [hres] at hfalse
      simp at hfalse
  · have hres : getInfo c n T cache =
        { total_chunks := estimateChunks c n T, is_processed := false } := by
      unfold getInfo
      rw [if_neg hcond]
    refine ⟨?_, fun htrue => ?_, fun _ => by rw [hres]⟩
    · rw [hres]
      constructor
      · intro hfalse
        exact absurd hfalse (by simp)
      · rintro ⟨hk0, hkN⟩
        exfalso
        apply hcond
        refine ⟨by rw [hcount]; exact hk0, ?_⟩
        rw [lastCachedIndex_of_range cache k hk0 hk]
        omega
    · rw [hres] at htrue
      simp at htrue

theorem getInfo_dual_mode_witness :
    (∀ i, i ∈ ([(0, [81, 85, 74, 68])] : CacheArea).map Prod.fst ↔ i < 1) ∧
    (((getInfo .base64 3 1048576 [(0, [81, 85, 74, 68])]).is_processed = true ↔
        (0 < 1 ∧ 1 = windowCount (rawWindow .base64 1048576) 3)) ∧
      ((getInfo .base64 3 1048576 [(0, [81, 85, 74, 68])]).is_processed = true →
        (getInfo .base64 3 1048576 [(0, [81, 85, 74, 68])]).total_chunks
          = cacheCount [(0, [81, 85, 74, 68])]) ∧
      ((getInfo .base64 3 1048576 [(0, [81, 85, 74, 68])]).is_processed = false →
        (getInfo .base64 3 1048576 [(0, [81, 85, 74, 68])]).total_chunks
          = estimateChunks .base64 3 1048576)) :=
  ⟨by intro i; simp [Nat.lt_one_iff],
    getInfo_dual_mode .base64 3 1048576 1 [(0, [81, 85, 74, 68])]
      (by intro i; simp [Nat.lt_one_iff])⟩

/-! ## Concrete scenario and counterexample theorems -/

/-- C4: for the 3-byte file `[0x41, 0x42, 0x43]` with a 1 MiB target,
base64 yields exactly one chunk whose data is the string QUJD (character
codes `[81, 85, 74, 68]`) and a chunk count of 1, and yEnc yields one
chunk whose bytes are `klm` (`[0x6B, 0x6C, 0x6D]`), each raw byte mapped
to `(raw + 42) mod 256` with no escape needed. -/
theorem concrete_scenario_3bytes :
    splitIntoWindows (rawWindow .base64 1048576) [65, 66, 67] = [[65, 66, 67]] ∧
    windowCount (rawWindow .base64 1048576) 3 = 1 ∧
    estimateChunks .base64 3 1048576 = 1 ∧
    encodeData .base64 [65, 66, 67] = [81, 85, 74, 68] ∧
    splitIntoWindows (rawWindow .yenc 1048576) [65, 66, 67] = [[65, 66, 67]] ∧
    encodeData .yenc [65, 66, 67] = [107, 108, 109] := by
  decide

/-- C2 fails on base85: the client decodes the backend's ASCII85 output
with the base64 decoder, so the round trip does not return the original
bytes; on the one-byte input `[0x00]` the encoder produces the two
characters `!!` (codes `[33, 33]`), which the base64 decoder rejects. -/
theorem base85_roundtrip_fails :
    encodeData .base85 [0] = [33, 33] ∧
    decodeData (encodeData .base85 [0]) .base85 = none ∧
    decodeData (encodeData .base85 [0]) .base85 ≠ some [0] := by
  decide

/-- C6 counterexample: the two-character input `zz` lies outside the hex
alphabet (`hexDigitVal 122 = none`), yet the client hex decoder silently
returns the byte `[0]` instead of failing with a malformed-input error. -/
theorem decode_malformed_cex :
    hexDigitVal 122 = none ∧ decodeData [122, 122] .hex = some [0] := by
  decide

/-- C6 amended: only the base64 decoder (and the base85/uuencode branches
that delegate to it) rejects malformed text.  The hex decoder fails
exactly on odd-length input and never because of invalid characters, the
base32 decoder always succeeds (it silently skips characters outside its
alphabet), and the yEnc decoder always succeeds (a dangling trailing
`0x3D` is decoded as a literal byte). -/
theorem decode_leniency :
    (∀ s : List Nat, decodeData s .hex = none ↔ ¬ s.length % 2 = 0) ∧
    (∀ s : List Nat, (decodeData s .base32).isSome = true) ∧
    (∀ s : List Nat, (decodeData s .yenc).isSome = true) ∧
    decodeData [49, 49, 49, 49, 49, 49, 49, 49] .base32 = some [] ∧
    decodeData [61] .yenc = some [19] ∧
    decodeData [33] .base64 = none := by
  refine ⟨?_, ?_, ?_, by decide, by decide, by decide⟩
  · intro s
    by_cases h : s.length % 2 = 0
    · simp [decodeData, h]
    · simp [decodeData, h]
  · intro s
    simp [decodeData]
  · intro s
    simp [decodeData]

/-- C7 fails: the two frontend chunk-count estimates disagree.  For a
base64 size of 3 MiB and a 1 MiB chunk size, the part_000 formula
(multiplying the already-encoded `b64_size` by 4/3 again) yields 4 while
the part_002 formula `ceil(b64_size / chunk_size)` yields 3. -/
theorem frontend_estimates_disagree :
    expectedChunksPart000 3145728 1048576 = 4 ∧
    estimatedChunksPart002 3145728 1048576 = 3 := by
  constructor
  · norm_num [expectedChunksPart000]
  · norm_num [estimatedChunksPart002]

/-- C9: for every input string, the base85 and uuencode branches of
`decodeData` return exactly what the base64 branch returns: both delegate
to the base64 decoder. -/
theorem base85_uuencode_delegate :
    ∀ s : List Nat, decodeData s .base85 = decodeData s .base64 ∧
      decodeData s .uuencode = decodeData s .base64 :=
  fun _ => ⟨rfl, rfl⟩

end B64T
